import Mathlib

/-!
Verification of the context-generation engine of `jadx-context-builder.py`.

The Python source is shallowly embedded: every definition below mirrors one
Python function (or one regular-expression operation used by it).  The file
system and the SQLite index are modelled as finite association lists inside a
`Corpus` record; Python's `re` operations on the concrete patterns appearing
in the source are implemented as executable character-list scanners that
reproduce the leftmost / greedy / lazy semantics of those exact patterns.

Machine-arithmetic note: `calculate_tokens` ends in `int(n * 1.2)` on a
Python float.  For every count `n` reachable from a text (far below 2^50)
the double-precision product rounds so that `int(n * 1.2) = 6 * n / 5` in
exact integer arithmetic, which is how it is embedded here.
-/

namespace JadxCB

/-! ## Character classes of the regular expressions in the source -/

/-- Python regex `\s` on the ASCII range (space, tab, newline, CR, VT, FF);
also the set stripped by `str.strip()`. -/
def isPySpace (c : Char) : Bool :=
  c = ' ' || c = '\t' || c = '\n' || c = '\r' || c = '\x0b' || c = '\x0c'

/-- Python regex `\w` on the ASCII range: `[A-Za-z0-9_]`. -/
def isWordChar (c : Char) : Bool :=
  c.isAlphanum || c = '_'

/-- Character class `[A-Za-z0-9_.]` used by the `extends` capture and the
second half of the reference pattern. -/
def isNameDotChar (c : Char) : Bool :=
  isWordChar c || c = '.'

/-- Character class `[A-Za-z0-9_.,\s]` used by the `implements` capture. -/
def isImplChar (c : Char) : Bool :=
  isWordChar c || c = '.' || c = ',' || isPySpace c

/-- Character class `[{}\[\]()<>]` counted by `calculate_tokens`. -/
def isSpecialChar (c : Char) : Bool :=
  c = '\x7b' || c = '\x7d' || c = '[' || c = ']' || c = '(' || c = ')' || c = '<' || c = '>'

/-! ## `fnmatch.fnmatch` (shell-style glob matching, POSIX case behaviour) -/

/-- Membership of a character in the body of a glob character class,
with `a-b` ranges (an impossible range matches nothing, as in Python's
`fnmatch.translate`); a trailing or leading `-` is a literal. -/
def charInClass (c : Char) : List Char → Bool
  | [] => false
  | a :: '-' :: b :: rest => if a ≤ c ∧ c ≤ b then true else charInClass c rest
  | a :: rest => if a = c then true else charInClass c rest

/-- Scan for the `]` closing a glob character class; returns the class body
and the remaining pattern.  `none` when the class is unterminated. -/
def findClassClose : List Char → Option (List Char × List Char)
  | [] => none
  | ']' :: t => some ([], t)
  | c :: t => (findClassClose t).map (fun br => (c :: br.1, br.2))

/-- Parse a glob character class that begins just after `[`: an optional
leading `!` negates, a first `]` is literal.  Returns
(negated, body, rest-of-pattern), or `none` for an unterminated class
(which `fnmatch` treats as a literal `[`). -/
def scanClass (cs : List Char) : Option (Bool × List Char × List Char) :=
  match cs with
  | '!' :: cs1 =>
    match cs1 with
    | ']' :: t => (findClassClose t).map (fun br => (true, ']' :: br.1, br.2))
    | _ => (findClassClose cs1).map (fun br => (true, br.1, br.2))
  | _ =>
    match cs with
    | ']' :: t => (findClassClose t).map (fun br => (false, ']' :: br.1, br.2))
    | _ => (findClassClose cs).map (fun br => (false, br.1, br.2))

/-- Core glob matcher, structurally recursive on a fuel that dominates the
pattern length (each step consumes at least one pattern character). -/
def globMatchF : Nat → List Char → List Char → Bool
  | 0, p, s => p.isEmpty && s.isEmpty
  | _ + 1, [], s => s.isEmpty
  | n + 1, '*' :: ps, s => (s.tails).any (fun t => globMatchF n ps t)
  | n + 1, '?' :: ps, s =>
    match s with
    | [] => false
    | _ :: t => globMatchF n ps t
  | n + 1, '[' :: ps, s =>
    match scanClass ps with
    | none =>
      match s with
      | '[' :: t => globMatchF n ps t
      | _ => false
    | some (neg, body, rest) =>
      match s with
      | [] => false
      | c :: t => (charInClass c body ≠ neg) && globMatchF n rest t
  | n + 1, p :: ps, s =>
    match s with
    | [] => false
    | c :: t => p = c && globMatchF n ps t

/-- Embeds `fnmatch.fnmatch(name, pat)` (POSIX: `normcase` is the identity):
anchored glob match of the whole name against the whole pattern. -/
def fnmatch (name pat : String) : Bool :=
  globMatchF pat.data.length pat.data name.data

/-! ## `matches_package_filter` (source lines 563-587) -/

/-- Embeds `JadxContextGenerator.matches_package_filter`: the blacklist loop
returns `False` on the first glob match, then the whitelist loop returns
`True` on the first glob match, and the fall-through result is
`len(whitelist) == 0`. -/
def matches_package_filter (package : String) (whitelist blacklist : List String) : Bool :=
  if blacklist.any (fun black => fnmatch package black) then false
  else if whitelist.any (fun white => fnmatch package white) then true
  else whitelist.length == 0

/-! ## String helpers used by the source (`str.lower`, `in`, `strip`, split) -/

/-- Python `str.lower()` on the ASCII range. -/
def strLower (s : String) : String :=
  String.mk (s.data.map Char.toLower)

/-- Python substring test `needle in hay` on character lists. -/
def listHasSub (needle : List Char) : List Char → Bool
  | [] => needle.isEmpty
  | c :: rest => needle.isPrefixOf (c :: rest) || listHasSub needle rest

/-- Python substring test `needle in hay` on strings. -/
def strHasSub (hay needle : String) : Bool :=
  listHasSub needle.data hay.data

/-- Python `str.strip()`: drop whitespace from both ends. -/
def pyStrip (cs : List Char) : List Char :=
  ((cs.dropWhile isPySpace).reverse.dropWhile isPySpace).reverse

/-- Python `str.split(sep)` for a one-character separator. -/
def splitOnChar (sep : Char) : List Char → List (List Char)
  | [] => [[]]
  | c :: cs =>
    if c = sep then [] :: splitOnChar sep cs
    else
      match splitOnChar sep cs with
      | g :: gs => (c :: g) :: gs
      | [] => [[c]]

/-- Python `name.split('.')[-1]`: the final dotted segment. -/
def simpleName (name : String) : String :=
  String.mk ((splitOnChar '.' name.data).getLastD [])

/-! ## The corpus model

The run-time environment of one `generate_context` call: the SQLite
`class_index` rows, the `.java` files reachable by the fallback directory
scan of `find_class_file` (each with the class name derived from its path,
in scan order), and the readable file contents (a path absent from
`content` models a file whose `open`/`read` raises). -/

/-- First-match association-list lookup (SQLite point query on the primary
key / Python dict behaviour). -/
def alistFind (l : List (String × String)) (key : String) : Option String :=
  match l with
  | [] => none
  | kv :: rest => if kv.1 = key then some kv.2 else alistFind rest key

/-- The per-run environment consumed by the context generator. -/
structure Corpus where
  /-- The `class_index` rows: class name → file path, in insertion order. -/
  db : List (String × String)
  /-- Files found by the fallback scan over the search paths, as
  (derived class name, file path), in scan order. -/
  files : List (String × String)
  /-- Readable file contents: file path → text. -/
  content : List (String × String)

/-! ## `find_class_file` (source lines 349-423) and `get_class_content` -/

/-- Embeds `find_class_file`: an exact-match query on the `class_index`
table first; on a miss, a scan of the search paths returning the first file
whose derived class name contains the queried name case-insensitively. -/
def find_class_file (c : Corpus) (class_name : String) : Option String :=
  match alistFind c.db class_name with
  | some path => some path
  | none =>
    (c.files.find? (fun nf =>
      listHasSub (strLower class_name).data (strLower nf.1).data)).map (fun nf => nf.2)

/-- Embeds `get_class_content`: empty string when the file is not found or
cannot be read. -/
def get_class_content (c : Corpus) (class_name : String) : String :=
  match find_class_file c class_name with
  | none => ""
  | some path =>
    match alistFind c.content path with
    | none => ""
    | some text => text

/-! ## Structural extraction regexes (source lines 465-491)

Each scanner reproduces `re.search`/`re.findall` for the one concrete
pattern appearing in the source: leftmost match position, greedy repetition,
and the single backtracking step those patterns admit. -/

/-- Attempt `extends\s+([A-Za-z0-9_.]+)` anchored at the current position:
the literal, at least one whitespace, then a maximal nonempty name run. -/
def tryExtendsAt (cs : List Char) : Option (List Char) :=
  if ("extends".data).isPrefixOf cs then
    let rest := cs.drop 7
    let w := rest.takeWhile isPySpace
    if w.isEmpty then none
    else
      let nm := (rest.drop w.length).takeWhile isNameDotChar
      if nm.isEmpty then none else some nm
  else none

/-- Embeds `re.search(r'extends\s+([A-Za-z0-9_.]+)', content)`: first match wins,
the engine advances one character after a failed anchor. -/
def searchExtends : List Char → Option (List Char)
  | [] => none
  | c :: cs =>
    match tryExtendsAt (c :: cs) with
    | some nm => some nm
    | none => searchExtends cs

/-- Attempt `implements\s+([A-Za-z0-9_.,\s]+)` anchored at the current
position.  `\s+` is greedy; when no capture character follows the maximal
whitespace run, the engine backtracks one whitespace character into the
capture (possible only when the run has length at least two). -/
def tryImplementsAt (cs : List Char) : Option (List Char) :=
  if ("implements".data).isPrefixOf cs then
    let rest := cs.drop 10
    let w := rest.takeWhile isPySpace
    if w.isEmpty then none
    else
      let cap := (rest.drop w.length).takeWhile isImplChar
      if cap.isEmpty then
        if 2 ≤ w.length then
          match w.reverse with
          | x :: _ => some [x]
          | [] => none
        else none
      else some cap
  else none

/-- Embeds `re.search(r'implements\s+([A-Za-z0-9_.,\s]+)', content)`. -/
def searchImplements : List Char → Option (List Char)
  | [] => none
  | c :: cs =>
    match tryImplementsAt (c :: cs) with
    | some cap => some cap
    | none => searchImplements cs

/-- Attempt `[A-Za-z0-9_]+\.[A-Za-z0-9_.]+` anchored at the current
position; returns the match and the remaining input after it. -/
def tryRefAt (cs : List Char) : Option (List Char × List Char) :=
  let r1 := cs.takeWhile isWordChar
  if r1.isEmpty then none
  else
    match cs.drop r1.length with
    | '.' :: rest2 =>
      let r2 := rest2.takeWhile isNameDotChar
      if r2.isEmpty then none
      else some (r1 ++ '.' :: r2, rest2.drop r2.length)
    | _ => none

/-- Embeds `re.findall(r'([A-Za-z0-9_]+\.[A-Za-z0-9_.]+)', content)`: leftmost
non-overlapping matches, in discovery order, duplicates kept.  Structural on
a fuel dominating the input length (each match consumes at least two
characters, each failure one). -/
def findRefsF : Nat → List Char → List String
  | 0, _ => []
  | _ + 1, [] => []
  | n + 1, c :: cs =>
    match tryRefAt (c :: cs) with
    | some mr => String.mk mr.1 :: findRefsF n mr.2
    | none => findRefsF n cs

/-- All matches of the reference pattern in a text. -/
def findRefs (cs : List Char) : List String :=
  findRefsF cs.length cs

/-- Superclass extraction of `get_class_hierarchy`: zero or one name. -/
def superclassesOf (content : String) : List String :=
  match searchExtends content.data with
  | some nm => [String.mk nm]
  | none => []

/-- Interface extraction of `get_class_hierarchy`: the capture split on
commas, each piece stripped. -/
def interfacesOf (content : String) : List String :=
  match searchImplements content.data with
  | some cap => (splitOnChar ',' cap).map (fun g => String.mk (pyStrip g))
  | none => []

/-- Reference extraction of `get_class_hierarchy`, before the matches are
poured into the Python set `referenced_classes`: the raw `findall` list. -/
def referencedOf (content : String) : List String :=
  findRefs content.data

/-! ## `get_class_hierarchy` (source lines 427-507) -/

/-- The dictionary built by `get_class_hierarchy`.  In the source
`referenced_classes` and `using_classes` are Python sets; `referenced` below
holds the raw match list, and the set's construction and iteration order are
modelled by the `setIter` parameter of the assembler (a faithful
instantiation enumerates each distinct element exactly once, in an order the
corpus does not determine).  `inner_classes` is initialised and never
written or read, so it is omitted. -/
structure Hierarchy where
  superclasses : List String
  interfaces : List String
  referenced : List String
  using_classes : List String

/-- Embeds `get_class_hierarchy`.  `tracer` models the bound method
`trace_usage` filling `using_classes`; a missing file or unreadable content
yields the initialised (empty) hierarchy, the exception path of the
source. -/
def get_class_hierarchy (c : Corpus) (tracer : String → List String)
    (class_name : String) : Hierarchy :=
  match find_class_file c class_name with
  | none => ⟨[], [], [], []⟩
  | some path =>
    match alistFind c.content path with
    | none => ⟨[], [], [], []⟩
    | some content =>
      ⟨superclassesOf content, interfacesOf content, referencedOf content,
       tracer class_name⟩

/-- Embeds `trace_usage` (source lines 511-559): scan every indexed file,
and collect the derived name of each file whose text contains the full or
the simple class name.  `deriveName` models the
`relative_to(output_dir).with_suffix('')` path computation; the Python
result is a set, modelled as the scan-order list of its additions. -/
def trace_usage (c : Corpus) (deriveName : String → String)
    (class_name : String) : List String :=
  c.db.filterMap (fun rec =>
    match alistFind c.content rec.2 with
    | none => none
    | some text =>
      if strHasSub text class_name || strHasSub text (simpleName class_name) then
        some (deriveName rec.2)
      else none)

/-! ## The regex substitutions of `optimize_code_tokens` (source lines 619-647)

Each `re.sub` is embedded as a scanner reproducing leftmost non-overlapping
replacement for its concrete pattern.  The comment-related scanners carry a
fuel dominating the input length; every step consumes at least one input
character, so the wrappers instantiated with the length are total replicas. -/

/-- Embeds `re.sub(r'\s+', ' ', code)`: every maximal whitespace run becomes one
space.  The flag records whether the previous character was whitespace. -/
def collapseWsAux : Bool → List Char → List Char
  | _, [] => []
  | inRun, c :: cs =>
    if isPySpace c then
      if inRun then collapseWsAux true cs else ' ' :: collapseWsAux true cs
    else c :: collapseWsAux false cs

/-- Embeds `re.sub(r'\s+', ' ', code)`. -/
def collapseWs (cs : List Char) : List Char :=
  collapseWsAux false cs

/-- Match `\s*X\s*` (for a brace `X`) anchored at the current position:
greedy whitespace, the brace, greedy whitespace; returns the rest. -/
def braceMatchAt (brace : Char) (cs : List Char) : Option (List Char) :=
  if (cs.dropWhile isPySpace).head? = some brace then
    some ((cs.dropWhile isPySpace).tail.dropWhile isPySpace)
  else none

/-- Embeds `re.sub(r'\s*{\s*', ...)` and its `}` twin: each match is replaced
by the bare brace.  A failed anchor emits one character and advances. -/
def subBraceF (brace : Char) : Nat → List Char → List Char
  | 0, cs => cs
  | _ + 1, [] => []
  | n + 1, c :: cs =>
    match braceMatchAt brace (c :: cs) with
    | some rest => brace :: subBraceF brace n rest
    | none => c :: subBraceF brace n cs

/-- Embeds `re.sub` for the brace patterns, at full fuel. -/
def subBrace (brace : Char) (cs : List Char) : List Char :=
  subBraceF brace cs.length cs

/-- The suffix after the first newline, when one exists (`.*?` of the
line-comment pattern cannot cross a newline, so the lazy match ends at the
first one). -/
def afterFirstNl : List Char → Option (List Char)
  | [] => none
  | c :: cs => if c = '\n' then some cs else afterFirstNl cs

/-- Embeds `re.sub(r'//.*?\n', '\n', code)`: a `//` with a later newline is
replaced, with everything between, by one newline; a `//` with no newline
left never matches, and the engine advances one character. -/
def subLineCommentF : Nat → List Char → List Char
  | 0, cs => cs
  | _ + 1, [] => []
  | n + 1, c :: cs =>
    if c = '/' ∧ cs.head? = some '/' then
      match afterFirstNl cs.tail with
      | some rest => '\n' :: subLineCommentF n rest
      | none => c :: subLineCommentF n cs
    else c :: subLineCommentF n cs

/-- Embeds `re.sub(r'//.*?\n', '\n', code)`, at full fuel. -/
def subLineComment (cs : List Char) : List Char :=
  subLineCommentF cs.length cs

/-- The suffix after the first `*/`, when one exists (lazy `.*?` with
DOTALL ends at the first closer). -/
def afterBlockClose : List Char → Option (List Char)
  | [] => none
  | c :: cs =>
    if c = '*' ∧ cs.head? = some '/' then some cs.tail
    else afterBlockClose cs

/-- Embeds `re.sub(r'/\*.*?\*/', '', code, flags=re.DOTALL)`: a `/*` with a later
`*/` is removed together with everything between; an unclosed `/*` never
matches. -/
def subBlockCommentF : Nat → List Char → List Char
  | 0, cs => cs
  | _ + 1, [] => []
  | n + 1, c :: cs =>
    if c = '/' ∧ cs.head? = some '*' then
      match afterBlockClose cs.tail with
      | some rest => subBlockCommentF n rest
      | none => c :: subBlockCommentF n cs
    else c :: subBlockCommentF n cs

/-- Embeds `re.sub(r'/\*.*?\*/', '', code, flags=re.DOTALL)`, at full fuel. -/
def subBlockComment (cs : List Char) : List Char :=
  subBlockCommentF cs.length cs

/-- For the blank-line pattern `\n\s*\n`: inside the maximal whitespace run
starting here, the suffix after the run's last newline (the greedy `\s*`
bites as much as it can and backtracks to the last newline), or `none` when
the run contains no newline. -/
def afterLastNlInRun : List Char → Option (List Char)
  | [] => none
  | c :: cs =>
    if isPySpace c then
      match afterLastNlInRun cs with
      | some r => some r
      | none => if c = '\n' then some cs else none
    else none

/-- Embeds `re.sub(r'\n\s*\n', '\n', code)`: a newline whose following whitespace
run contains another newline is collapsed, up to the run's last newline,
into a single newline. -/
def subBlankF : Nat → List Char → List Char
  | 0, cs => cs
  | _ + 1, [] => []
  | n + 1, c :: cs =>
    if c = '\n' then
      match afterLastNlInRun cs with
      | some rest => '\n' :: subBlankF n rest
      | none => c :: subBlankF n cs
    else c :: subBlankF n cs

/-- Embeds `re.sub(r'\n\s*\n', '\n', code)`, at full fuel. -/
def subBlank (cs : List Char) : List Char :=
  subBlankF cs.length cs

/-- Embeds `optimize_code_tokens`: the six substitutions in source order,
then `str.strip()`. -/
def optimize_code_tokens (code : String) : String :=
  let c1 := collapseWs code.data
  let c2 := subBrace '\x7b' c1
  let c3 := subBrace '\x7d' c2
  let c4 := subLineComment c3
  let c5 := subBlockComment c4
  let c6 := subBlank c5
  String.mk (pyStrip c6)

/-! ## `calculate_tokens` (source lines 651-661) -/

/-- Number of matches of `\w+|[^\w\s]`: maximal word runs count once, a
character that is neither word nor whitespace counts once.  The flag records
whether the previous character was a word character. -/
def countWordsAux : Bool → List Char → Nat
  | _, [] => 0
  | prevWord, c :: cs =>
    if isWordChar c then
      (if prevWord then 0 else 1) + countWordsAux true cs
    else if isPySpace c then countWordsAux false cs
    else 1 + countWordsAux false cs

/-- Embeds `len(re.findall(r'\w+|[^\w\s]', text))`. -/
def countWords (cs : List Char) : Nat :=
  countWordsAux false cs

/-- Embeds `len(re.findall(r'[{}\[\]()<>]', text))`. -/
def countSpecial (cs : List Char) : Nat :=
  cs.countP isSpecialChar

/-- Number of matches of `\s+`: maximal whitespace runs. -/
def countWsRunsAux : Bool → List Char → Nat
  | _, [] => 0
  | prevWs, c :: cs =>
    if isPySpace c then
      (if prevWs then 0 else 1) + countWsRunsAux true cs
    else countWsRunsAux false cs

/-- Embeds `len(re.findall(r'\s+', text))`. -/
def countWsRuns (cs : List Char) : Nat :=
  countWsRunsAux false cs

/-- Embeds `calculate_tokens`.  `int(n * 1.2)` on the Python float equals
`6 * n / 5` in integer arithmetic for every reachable count (the rounded
double product never crosses the truncation boundary below 2^50). -/
def calculate_tokens (text : String) : Nat :=
  6 * (countWords text.data + countSpecial text.data + countWsRuns text.data) / 5

/-! ## `generate_context` (source lines 665-751)

The while loop is embedded as a step function on an explicit traversal
state, iterated on a fuel.  The fuel chosen by `genRun` is a potential bound
proved sufficient below (for any set-iteration function that enumerates a
subset of its input without duplicates), so the state it reaches is the
loop's exit state. -/

/-- Run configuration and environment of one `generate_context` call.
`maxTokens` is `self.MAX_TOKENS`; `setIter` models the iteration of the
Python set `referenced_classes` when the queue is extended (the element
order of a Python string set is not determined by the corpus); `tracer`
models the bound method `trace_usage`. -/
structure Config where
  corpus : Corpus
  whitelist : List String
  blacklist : List String
  maxTokens : Nat
  setIter : List String → List String
  tracer : String → List String

/-- The traversal state of `generate_context`: the FIFO work list, the
`processed_classes` set (membership-only, held as a list), the appended
bodies `context_parts`, and the running token counter.  `appended` is a
history field recording the names whose bodies were appended, one per entry
of `parts`; it exists for specification only and nothing computed from the
state reads it. -/
structure GenState where
  queue : List String
  processed : List String
  parts : List String
  appended : List String
  total : Nat

/-- One iteration of the while loop body: pop, skip if processed, package
filter on the popped name, content retrieval, normalisation, the budget
check guarding both the append and the frontier expansion, and the
`processed` insertion that follows filter and content success. -/
def genStep (cfg : Config) (s : GenState) : GenState :=
  match s.queue with
  | [] => s
  | current :: rest =>
    if current ∈ s.processed then { s with queue := rest }
    else if ¬ matches_package_filter current cfg.whitelist cfg.blacklist then
      { s with queue := rest }
    else
      let class_content := get_class_content cfg.corpus current
      if class_content = "" then { s with queue := rest }
      else
        let optimized := optimize_code_tokens class_content
        let tokens_needed := calculate_tokens optimized
        if s.total + tokens_needed ≤ cfg.maxTokens then
          let h := get_class_hierarchy cfg.corpus cfg.tracer current
          { queue := rest ++ h.superclasses ++ h.interfaces ++ cfg.setIter h.referenced
            processed := current :: s.processed
            parts := s.parts ++ [optimized]
            appended := s.appended ++ [current]
            total := s.total + tokens_needed }
        else
          { s with queue := rest, processed := current :: s.processed }

/-- The while loop: iterate `genStep` while the queue is non-empty and the
budget is not exhausted, up to the fuel. -/
def genLoop (cfg : Config) : Nat → GenState → GenState
  | 0, s => s
  | n + 1, s =>
    if s.queue ≠ [] ∧ s.total < cfg.maxTokens then genLoop cfg n (genStep cfg s)
    else s

/-- The loop's exit condition. -/
def loopDone (cfg : Config) (s : GenState) : Prop :=
  s.queue = [] ∨ cfg.maxTokens ≤ s.total

/-- Initial traversal state: the queue seeded with the target. -/
def genInit (target : String) : GenState :=
  ⟨[target], [], [], [], 0⟩

/-- All names a step can ever push for one readable content: superclass,
interfaces, and raw reference matches. -/
def edgesOf (content : String) : List String :=
  superclassesOf content ++ interfacesOf content ++ referencedOf content

/-- Every name any reachable content can contribute to the queue. -/
def extractedNames (c : Corpus) : List String :=
  (c.content.map (fun pc => edgesOf pc.2)).flatten

/-- Every name that can ever sit in the queue: the target and all
extractable names. -/
def allNames (c : Corpus) (target : String) : List String :=
  target :: extractedNames c

/-- Fuel sufficient for the loop to reach its exit condition: one plus the
initial potential (queue length plus a weight per never-processed name). -/
def genFuel (cfg : Config) (target : String) : Nat :=
  ((extractedNames cfg.corpus).length + 1) * (allNames cfg.corpus target).dedup.length + 1

/-- The exit state of the while loop of `generate_context`. -/
def genRun (cfg : Config) (target : String) : GenState :=
  genLoop cfg (genFuel cfg target) (genInit target)

/-- Embeds `generate_context`: the `"\n\n"`-joined appended bodies. -/
def generate_context (cfg : Config) (target : String) : String :=
  String.intercalate "\n\n" (genRun cfg target).parts

/-! ## Specification measures

Quantities used to state and prove the loop's progress: the number of
candidate names not yet processed, and a potential that strictly decreases
at every guarded iteration. -/

/-- Candidate names not yet in `processed`. -/
def remaining (c : Corpus) (target : String) (s : GenState) : Nat :=
  (allNames c target).dedup.countP (fun x => decide (x ∉ s.processed))

/-- Weight dominating the length of any frontier batch, plus one. -/
def weight (c : Corpus) : Nat :=
  (extractedNames c).length + 1

/-- Loop potential: queue length plus weighted unprocessed candidates. -/
def phi (c : Corpus) (target : String) (s : GenState) : Nat :=
  s.queue.length + weight c * remaining c target s

/-- The scan flag left behind by a left-to-right pass: whether the last
character satisfies the class (the start flag if the text is empty). -/
def lastFlag (f : Char → Bool) (b : Bool) : List Char → Bool
  | [] => b
  | c :: cs => lastFlag f (f c) cs

/-! ## Concrete corpora used as exhibits and witnesses -/

/-- A one-class corpus whose only class is `com.app.Main` (package
`com.app`). -/
def corpusC1 : Corpus :=
  { db := [("com.app.Main", "fmain")]
    files := [("com.app.Main", "fmain")]
    content := [("fmain", "class Main\x7b\x7d")] }

/-- A run over `corpusC1` whose whitelist is the exact package of the only
class. -/
def cfgC1 : Config :=
  { corpus := corpusC1
    whitelist := ["com.app"]
    blacklist := []
    maxTokens := 100000
    setIter := fun l => l.dedup
    tracer := fun _ => [] }

/-- A two-class corpus whose reference graph is the cycle
`a.A -> b.B -> a.A`. -/
def corpusC4 : Corpus :=
  { db := [("a.A", "fa"), ("b.B", "fb")]
    files := []
    content := [("fa", "class A\x7bb.B f;\x7d"), ("fb", "class B\x7ba.A g;\x7d")] }

/-- An unfiltered, amply budgeted run over the cyclic corpus. -/
def cfgC4 : Config :=
  { corpus := corpusC4
    whitelist := []
    blacklist := []
    maxTokens := 1000
    setIter := fun l => l.dedup
    tracer := fun _ => [] }

/-- A corpus whose index is empty while the fallback scan still sees one
file. -/
def corpusC5 : Corpus :=
  { db := []
    files := [("com.app.FooBar", "f1")]
    content := [("f1", "class FooBar\x7b\x7d")] }

/-- An unfiltered run over `corpusC5`. -/
def cfgC5 : Config :=
  { corpus := corpusC5
    whitelist := []
    blacklist := []
    maxTokens := 100000
    setIter := fun l => l.dedup
    tracer := fun _ => [] }

/-- A corpus with one indexed, readable class `x.Y`. -/
def corpusC5w : Corpus :=
  { db := [("x.Y", "py")]
    files := []
    content := [("py", "class Y\x7b\x7d")] }

/-- A corpus with one indexed, readable class `a.A`. -/
def corpusC6 : Corpus :=
  { db := [("a.A", "fa")]
    files := []
    content := [("fa", "class A\x7b\x7d")] }

/-- A run over `corpusC6` whose budget is below the cost of `a.A` alone. -/
def cfgC6 : Config :=
  { corpus := corpusC6
    whitelist := []
    blacklist := []
    maxTokens := 1
    setIter := fun l => l.dedup
    tracer := fun _ => [] }

/-- A corpus in which `a.A` references the two distinct classes `b.B` and
`c.C`, which reference nothing. -/
def corpusC9 : Corpus :=
  { db := [("a.A", "fa"), ("b.B", "fb"), ("c.C", "fc")]
    files := []
    content := [("fa", "class A\x7bb.B x;c.C y;\x7d"), ("fb", "class B\x7bint p;\x7d"),
                ("fc", "class C\x7bint q;\x7d")] }

/-- A run over `corpusC9` whose set iteration keeps first occurrences. -/
def cfgC9a : Config :=
  { corpus := corpusC9
    whitelist := []
    blacklist := []
    maxTokens := 1000
    setIter := fun l => l.dedup
    tracer := fun _ => [] }

/-- The same run with the opposite set-iteration order: both `setIter`
functions enumerate exactly the distinct elements of their input, as a
Python set does, differing only in order. -/
def cfgC9b : Config :=
  { corpus := corpusC9
    whitelist := []
    blacklist := []
    maxTokens := 1000
    setIter := fun l => l.dedup.reverse
    tracer := fun _ => [] }

/-! ## Basic lemmas about the loop and the step -/

theorem alistFind_mem {l : List (String × String)} {k v : String}
    (h : alistFind l k = some v) : (k, v) ∈ l := by
  induction l with
  | nil => simp [alistFind] at h
  | cons kv rest ih =>
    rw [alistFind] at h
    split_ifs at h with hk
    · cases kv with
      | mk k1 v1 =>
        simp only [Option.some.injEq] at h
        simp_all
    · exact List.mem_cons_of_mem _ (ih h)

/-- A state satisfying the exit condition is a fixed point of the loop. -/
theorem genLoop_done_eq (cfg : Config) (s : GenState) (h : loopDone cfg s) :
    ∀ n, genLoop cfg n s = s := by
  intro n
  cases n with
  | zero => rfl
  | succ n =>
    rw [genLoop, if_neg]
    rcases h with h | h
    · intro hc; exact hc.1 h
    · intro hc; exact absurd hc.2 (not_lt.mpr h)

/-- Extra fuel after the exit condition is reached changes nothing. -/
theorem genLoop_add_of_done (cfg : Config) (a : Nat) :
    ∀ (b : Nat) (s : GenState), loopDone cfg (genLoop cfg a s) →
      genLoop cfg (a + b) s = genLoop cfg a s := by
  induction a with
  | zero =>
    intro b s h
    simpa [Nat.zero_add] using genLoop_done_eq cfg s h b
  | succ a ih =>
    intro b s h
    by_cases hg : s.queue ≠ [] ∧ s.total < cfg.maxTokens
    · rw [genLoop, if_pos hg] at h
      have : a + 1 + b = (a + b) + 1 := by omega
      rw [this, genLoop, if_pos hg, genLoop, if_pos hg, ih b _ h]
    · rw [genLoop, if_neg hg] at h
      rw [genLoop, if_neg hg, genLoop_done_eq cfg s h]

/-- The three outcomes of one loop iteration on a non-empty queue: a pure
skip, a budget refusal (processed, nothing appended, no expansion), or an
append with frontier expansion under the budget guard. -/
theorem genStep_shape (cfg : Config) (s : GenState) (cur : String)
    (rest : List String) (hq : s.queue = cur :: rest) :
    genStep cfg s = { s with queue := rest } ∨
    (cur ∉ s.processed ∧
      genStep cfg s = { s with queue := rest, processed := cur :: s.processed }) ∨
    (cur ∉ s.processed ∧
      get_class_content cfg.corpus cur ≠ "" ∧
      s.total + calculate_tokens (optimize_code_tokens (get_class_content cfg.corpus cur)) ≤
        cfg.maxTokens ∧
      genStep cfg s =
        { queue := rest ++ (get_class_hierarchy cfg.corpus cfg.tracer cur).superclasses ++
            (get_class_hierarchy cfg.corpus cfg.tracer cur).interfaces ++
            cfg.setIter (get_class_hierarchy cfg.corpus cfg.tracer cur).referenced
          processed := cur :: s.processed
          parts := s.parts ++ [optimize_code_tokens (get_class_content cfg.corpus cur)]
          appended := s.appended ++ [cur]
          total := s.total +
            calculate_tokens (optimize_code_tokens (get_class_content cfg.corpus cur)) }) := by
  simp only [genStep, hq]
  by_cases h1 : cur ∈ s.processed
  · left; rw [if_pos h1]
  · rw [if_neg h1]
    by_cases h2 : ¬ matches_package_filter cur cfg.whitelist cfg.blacklist
    · left; rw [if_pos h2]
    · rw [if_neg h2]
      by_cases h3 : get_class_content cfg.corpus cur = ""
      · left; simp [h3]
      · rw [if_neg h3]
        by_cases h4 : s.total +
            calculate_tokens (optimize_code_tokens (get_class_content cfg.corpus cur)) ≤
            cfg.maxTokens
        · right; right
          exact ⟨h1, h3, h4, by rw [if_pos h4]⟩
        · right; left
          exact ⟨h1, by rw [if_neg h4]⟩

/-- One step never lifts the counter above the ceiling. -/
theorem genStep_total_le (cfg : Config) (s : GenState)
    (h : s.total ≤ cfg.maxTokens) : (genStep cfg s).total ≤ cfg.maxTokens := by
  cases hq : s.queue with
  | nil => simp only [genStep, hq]; exact h
  | cons cur rest =>
    rcases genStep_shape cfg s cur rest hq with h1 | ⟨_, h2⟩ | ⟨_, _, h4, h5⟩
    · rw [h1]; exact h
    · rw [h2]; exact h
    · rw [h5]; exact h4

/-- The counter stays below the ceiling through the whole loop. -/
theorem genLoop_total_le (cfg : Config) :
    ∀ (n : Nat) (s : GenState), s.total ≤ cfg.maxTokens →
      (genLoop cfg n s).total ≤ cfg.maxTokens := by
  intro n
  induction n with
  | zero => intro s h; exact h
  | succ n ih =>
    intro s h
    rw [genLoop]
    split_ifs with hg
    · exact ih _ (genStep_total_le cfg s h)
    · exact h

/-- The hierarchy fields that feed the queue do not depend on the tracer. -/
theorem gch_fields_tracer (c : Corpus) (t1 t2 : String → List String) (n : String) :
    (get_class_hierarchy c t1 n).superclasses = (get_class_hierarchy c t2 n).superclasses ∧
    (get_class_hierarchy c t1 n).interfaces = (get_class_hierarchy c t2 n).interfaces ∧
    (get_class_hierarchy c t1 n).referenced = (get_class_hierarchy c t2 n).referenced := by
  rcases hf : find_class_file c n with _ | p
  · simp [get_class_hierarchy, hf]
  · rcases hc : alistFind c.content p with _ | content
    · simp [get_class_hierarchy, hf, hc]
    · simp [get_class_hierarchy, hf, hc]

/-- One step of the loop does not depend on the tracer. -/
theorem genStep_tracer (corpus : Corpus) (wl bl : List String) (mt : Nat)
    (si : List String → List String) (t1 t2 : String → List String) (s : GenState) :
    genStep ⟨corpus, wl, bl, mt, si, t1⟩ s = genStep ⟨corpus, wl, bl, mt, si, t2⟩ s := by
  cases hq : s.queue with
  | nil => simp only [genStep, hq]
  | cons cur rest =>
    obtain ⟨e1, e2, e3⟩ := gch_fields_tracer corpus t1 t2 cur
    simp only [genStep, hq]
    rw [e1, e2, e3]

/-- The whole loop does not depend on the tracer. -/
theorem genLoop_tracer (corpus : Corpus) (wl bl : List String) (mt : Nat)
    (si : List String → List String) (t1 t2 : String → List String) :
    ∀ (n : Nat) (s : GenState),
      genLoop ⟨corpus, wl, bl, mt, si, t1⟩ n s = genLoop ⟨corpus, wl, bl, mt, si, t2⟩ n s := by
  intro n
  induction n with
  | zero => intro s; rfl
  | succ n ih =>
    intro s
    rw [genLoop, genLoop]
    split_ifs with hg
    · rw [genStep_tracer corpus wl bl mt si t1 t2 s]; exact ih _
    · rfl

/-- A popped class that passes the filter and has content, but does not fit
the remaining budget, is marked processed and nothing else changes: no
append, no frontier expansion. -/
theorem genStep_budget_refusal (cfg : Config) (s : GenState) (cur : String)
    (rest : List String) (hq : s.queue = cur :: rest) (hp : cur ∉ s.processed)
    (hf : matches_package_filter cur cfg.whitelist cfg.blacklist = true)
    (hc : get_class_content cfg.corpus cur ≠ "")
    (hb : cfg.maxTokens <
      s.total + calculate_tokens (optimize_code_tokens (get_class_content cfg.corpus cur))) :
    genStep cfg s = { s with queue := rest, processed := cur :: s.processed } := by
  simp only [genStep, hq]
  rw [if_neg hp, if_neg (by simp [hf]), if_neg hc, if_neg (not_le.mpr hb)]

/-- A popped class that passes the filter, has content and fits the budget
is appended, and the queue is extended by its superclass, interfaces and
set-iterated references, in that order. -/
theorem genStep_append (cfg : Config) (s : GenState) (cur : String)
    (rest : List String) (hq : s.queue = cur :: rest) (hp : cur ∉ s.processed)
    (hf : matches_package_filter cur cfg.whitelist cfg.blacklist = true)
    (hc : get_class_content cfg.corpus cur ≠ "")
    (hb : s.total + calculate_tokens (optimize_code_tokens (get_class_content cfg.corpus cur)) ≤
      cfg.maxTokens) :
    genStep cfg s =
      { queue := rest ++ (get_class_hierarchy cfg.corpus cfg.tracer cur).superclasses ++
          (get_class_hierarchy cfg.corpus cfg.tracer cur).interfaces ++
          cfg.setIter (get_class_hierarchy cfg.corpus cfg.tracer cur).referenced
        processed := cur :: s.processed
        parts := s.parts ++ [optimize_code_tokens (get_class_content cfg.corpus cur)]
        appended := s.appended ++ [cur]
        total := s.total +
          calculate_tokens (optimize_code_tokens (get_class_content cfg.corpus cur)) } := by
  simp only [genStep, hq]
  rw [if_neg hp, if_neg (by simp [hf]), if_neg hc, if_pos hb]

/-- One guarded iteration followed by an exit state determines the loop. -/
theorem genLoop_one_then_done (cfg : Config) (n : Nat) (s : GenState)
    (hg : s.queue ≠ [] ∧ s.total < cfg.maxTokens)
    (hd : loopDone cfg (genStep cfg s)) :
    genLoop cfg (n + 1) s = genStep cfg s := by
  rw [genLoop, if_pos hg, genLoop_done_eq cfg _ hd]

/-! ## Newline elimination by the first substitution

After `re.sub(r'\s+', ' ', code)` the text contains no newline, and the
brace substitutions introduce none, so the line-comment and blank-line
patterns (which both require a literal newline) can never match. -/

/-- The whitespace collapse emits no newline. -/
theorem noNl_collapseWsAux (b : Bool) (cs : List Char) :
    '\n' ∉ collapseWsAux b cs := by
  induction cs generalizing b with
  | nil => simp [collapseWsAux]
  | cons c cs ih =>
    rw [collapseWsAux]
    split_ifs with h1 h2
    · exact ih true
    · intro hmem
      rcases List.mem_cons.mp hmem with h | h
      · exact absurd h (by decide)
      · exact ih true h
    · intro hmem
      rcases List.mem_cons.mp hmem with h | h
      · rw [← h] at h1
        exact h1 (by decide)
      · exact ih false h

/-- A successful brace-pattern match returns a suffix-of-suffix. -/
theorem braceMatchAt_subset {brace : Char} {l rest : List Char}
    (h : braceMatchAt brace l = some rest) : rest ⊆ l := by
  rw [braceMatchAt] at h
  split_ifs at h with hc
  simp only [Option.some.injEq] at h
  subst h
  intro x hx
  have h1 := (List.dropWhile_sublist _).subset hx
  have h2 := (List.tail_sublist _).subset h1
  exact (List.dropWhile_sublist _).subset h2

/-- The brace substitutions preserve newline-freeness. -/
theorem noNl_subBraceF (brace : Char) (hb : brace ≠ '\n') :
    ∀ (n : Nat) (cs : List Char), '\n' ∉ cs → '\n' ∉ subBraceF brace n cs := by
  intro n
  induction n with
  | zero => intro cs h; exact h
  | succ n ih =>
    intro cs h
    cases cs with
    | nil => simp [subBraceF]
    | cons c cs =>
      rw [subBraceF]
      rcases hm : braceMatchAt brace (c :: cs) with _ | rest
      · intro hmem
        rcases List.mem_cons.mp hmem with h1 | h1
        · exact h (h1 ▸ List.mem_cons_self c cs)
        · exact ih cs (fun hx => h (List.mem_cons_of_mem _ hx)) h1
      · intro hmem
        rcases List.mem_cons.mp hmem with h1 | h1
        · exact hb h1.symm
        · exact ih rest (fun hx => h (braceMatchAt_subset hm hx)) h1

/-- No newline, no lazy line-comment closer. -/
theorem afterFirstNl_eq_none {cs : List Char} (h : '\n' ∉ cs) :
    afterFirstNl cs = none := by
  induction cs with
  | nil => rfl
  | cons c cs ih =>
    rw [afterFirstNl, if_neg, ih (fun hx => h (List.mem_cons_of_mem _ hx))]
    intro hc
    exact h (hc ▸ List.mem_cons_self c cs)

/-- On newline-free text the line-comment substitution is the identity:
its pattern `//.*?\n` needs a newline to close. -/
theorem subLineCommentF_id :
    ∀ (n : Nat) (cs : List Char), '\n' ∉ cs → subLineCommentF n cs = cs := by
  intro n
  induction n with
  | zero => intro cs _; rfl
  | succ n ih =>
    intro cs h
    cases cs with
    | nil => rfl
    | cons c cs =>
      have hcs : '\n' ∉ cs := fun hx => h (List.mem_cons_of_mem _ hx)
      have htl : '\n' ∉ cs.tail := fun hx => hcs (List.mem_of_mem_tail hx)
      rw [subLineCommentF]
      split_ifs with h1
      · rw [afterFirstNl_eq_none htl, ih cs hcs]
      · rw [ih cs hcs]

/-- A successful block-comment closer returns a suffix-of-suffix. -/
theorem afterBlockClose_subset :
    ∀ {cs r : List Char}, afterBlockClose cs = some r → r ⊆ cs := by
  intro cs
  induction cs with
  | nil => intro r h; exact absurd h (by simp [afterBlockClose])
  | cons c cs ih =>
    intro r h
    rw [afterBlockClose] at h
    split_ifs at h with h1
    · simp only [Option.some.injEq] at h
      subst h
      exact fun x hx => List.mem_cons_of_mem _ (List.mem_of_mem_tail hx)
    · exact fun x hx => List.mem_cons_of_mem _ (ih h hx)

/-- The block-comment substitution preserves newline-freeness. -/
theorem noNl_subBlockCommentF :
    ∀ (n : Nat) (cs : List Char), '\n' ∉ cs → '\n' ∉ subBlockCommentF n cs := by
  intro n
  induction n with
  | zero => intro cs h; exact h
  | succ n ih =>
    intro cs h
    cases cs with
    | nil => simp [subBlockCommentF]
    | cons c cs =>
      have hcs : '\n' ∉ cs := fun hx => h (List.mem_cons_of_mem _ hx)
      rw [subBlockCommentF]
      split_ifs with h1
      · rcases hm : afterBlockClose cs.tail with _ | rest
        · intro hmem
          rcases List.mem_cons.mp hmem with h2 | h2
          · exact h (h2 ▸ List.mem_cons_self c cs)
          · exact ih cs hcs h2
        · refine ih rest (fun hx => hcs ?_)
          exact List.mem_of_mem_tail (afterBlockClose_subset hm hx)
      · intro hmem
        rcases List.mem_cons.mp hmem with h2 | h2
        · exact h (h2 ▸ List.mem_cons_self c cs)
        · exact ih cs hcs h2

/-- On newline-free text the blank-line substitution is the identity: its
pattern `\n\s*\n` needs a leading newline. -/
theorem subBlankF_id :
    ∀ (n : Nat) (cs : List Char), '\n' ∉ cs → subBlankF n cs = cs := by
  intro n
  induction n with
  | zero => intro cs _; rfl
  | succ n ih =>
    intro cs h
    cases cs with
    | nil => rfl
    | cons c cs =>
      have hcs : '\n' ∉ cs := fun hx => h (List.mem_cons_of_mem _ hx)
      rw [subBlankF, if_neg, ih cs hcs]
      intro hc
      exact h (hc ▸ List.mem_cons_self c cs)

/-! ## Claim theorems -/

/-- C2: for every package name, whitelist and blacklist,
`matches_package_filter` rejects when some blacklist pattern glob-matches
(whatever the whitelist says), otherwise accepts when some whitelist pattern
matches, and otherwise accepts exactly when the whitelist is empty. -/
theorem C2_filter_precedence (p : String) (wl bl : List String) :
    matches_package_filter p wl bl =
      (!(bl.any (fun black => fnmatch p black)) &&
        (wl.any (fun white => fnmatch p white) || wl.isEmpty)) := by
  rw [matches_package_filter]
  by_cases hb : bl.any (fun black => fnmatch p black) = true
  · simp [hb]
  · by_cases hw : wl.any (fun white => fnmatch p white) = true
    · simp [hb, hw]
    · have : (wl.length == 0) = wl.isEmpty := by cases wl <;> rfl
      simp [hb, hw, this]

/-- C3: for every corpus, target and budget the running counter never
exceeds the ceiling: it is at most `maxTokens` after the run, and after
every prefix of the run (so no single append pushes it past). -/
theorem C3_budget_monotonicity (cfg : Config) (target : String) :
    (genRun cfg target).total ≤ cfg.maxTokens ∧
    ∀ fuel, (genLoop cfg fuel (genInit target)).total ≤ cfg.maxTokens := by
  refine ⟨?_, fun fuel => ?_⟩
  · exact genLoop_total_le cfg _ _ (Nat.zero_le _)
  · exact genLoop_total_le cfg _ _ (Nat.zero_le _)

/-- C10: the context returned by `generate_context` is unchanged whatever
`trace_usage` returns — the tracer's output (the `using_classes` field) is
never pushed onto the traversal queue, so two runs that differ only in the
tracer produce the same string. -/
theorem C10_tracer_independence (corpus : Corpus) (wl bl : List String)
    (mt : Nat) (si : List String → List String)
    (t1 t2 : String → List String) (target : String) :
    generate_context ⟨corpus, wl, bl, mt, si, t1⟩ target =
      generate_context ⟨corpus, wl, bl, mt, si, t2⟩ target := by
  unfold generate_context genRun
  rw [genLoop_tracer corpus wl bl mt si t1 t2]
  rfl

/-- C1: the claim says the Package Filter is evaluated against the class's
package (the dotted name minus its last segment), but `generate_context`
passes the full dotted class name.  Exhibit: the package `com.app` of
`com.app.Main` passes a whitelist of exactly `com.app`, yet the class is
skipped — because the filter is evaluated on `com.app.Main`, which fails —
so the generated context is empty where the claim requires the class to be
appended. -/
theorem C1_filter_gets_class_name_not_package :
    matches_package_filter "com.app" ["com.app"] [] = true ∧
    matches_package_filter "com.app.Main" ["com.app"] [] = false ∧
    generate_context cfgC1 "com.app.Main" = "" ∧
    (genRun cfgC1 "com.app.Main").parts = [] := by
  refine ⟨by decide, by decide, by decide, by decide⟩

/-- C7: the claim says `optimize_code_tokens` strips both line and block
comments and removes blank lines.  In the code the whitespace collapse runs
first and leaves no newline, and the brace substitutions introduce none, so
the line-comment pattern `//.*?\n` and the blank-line pattern `\n\s*\n`
(both of which need a literal newline) never match: those two stages are
the identity on every input, and a line comment survives into the emitted
text, as the concrete input shows. -/
theorem C7_line_comment_stripping_is_dead_code :
    (∀ code : String,
      subLineComment (subBrace '\x7d' (subBrace '\x7b' (collapseWs code.data))) =
        subBrace '\x7d' (subBrace '\x7b' (collapseWs code.data)) ∧
      subBlank (subBlockComment (subBrace '\x7d' (subBrace '\x7b' (collapseWs code.data)))) =
        subBlockComment (subBrace '\x7d' (subBrace '\x7b' (collapseWs code.data)))) ∧
    optimize_code_tokens "int x; // secret\nint y;" = "int x; // secret int y;" := by
  constructor
  · intro code
    have h0 : '\n' ∉ collapseWs code.data := noNl_collapseWsAux false code.data
    have h1 : '\n' ∉ subBrace '\x7b' (collapseWs code.data) :=
      noNl_subBraceF '\x7b' (by decide) _ _ h0
    have h2 : '\n' ∉ subBrace '\x7d' (subBrace '\x7b' (collapseWs code.data)) :=
      noNl_subBraceF '\x7d' (by decide) _ _ h1
    refine ⟨subLineCommentF_id _ _ h2, ?_⟩
    exact subBlankF_id _ _ (noNl_subBlockCommentF _ _ h2)
  · decide

/-- C5 counterexample: the claim says absence of the name from the index
means the class is skipped with no content retrieved, but with an index
that does not know `foobar` the fallback scan of `find_class_file` returns
a file by case-insensitive substring match, its content is retrieved, and
the traversal appends it. -/
theorem C5_counterexample_fuzzy_fallback :
    alistFind corpusC5.db "foobar" = none ∧
    find_class_file corpusC5 "foobar" = some "f1" ∧
    get_class_content corpusC5 "foobar" = "class FooBar\x7b\x7d" ∧
    generate_context cfgC5 "foobar" = "class FooBar\x7b\x7d" := by
  refine ⟨by decide, by decide, by decide, by decide⟩

/-- C5 (amended): `find_class_file` first runs an exact-match point query
on the class index and returns the recorded path on a hit; on a miss it
falls back to scanning the source files in order, returning the first whose
derived class name contains the queried name case-insensitively; only when
both the query and the fallback fail is the class skipped with no content
retrieved. -/
theorem C5_lookup_exact_then_fuzzy (c : Corpus) (name : String) :
    (∀ p, alistFind c.db name = some p → find_class_file c name = some p) ∧
    (alistFind c.db name = none →
      find_class_file c name =
        (c.files.find? (fun nf =>
          listHasSub (strLower name).data (strLower nf.1).data)).map (fun nf => nf.2)) ∧
    (alistFind c.db name = none →
      c.files.find? (fun nf =>
        listHasSub (strLower name).data (strLower nf.1).data) = none →
      find_class_file c name = none ∧ get_class_content c name = "") := by
  refine ⟨fun p hp => ?_, fun h => ?_, fun h1 h2 => ?_⟩
  · rw [find_class_file, hp]
  · rw [find_class_file, h]
  · have hf : find_class_file c name = none := by
      rw [find_class_file, h1, h2]; rfl
    exact ⟨hf, by rw [get_class_content, hf]⟩

/-- Witness for the amended C5 statement at concrete inputs: a hit on the
index returns the recorded path, and a full miss yields no content. -/
theorem C5_lookup_exact_then_fuzzy_witness :
    find_class_file corpusC5w "x.Y" = some "py" ∧
    get_class_content corpusC5w "other" = "" :=
  ⟨(C5_lookup_exact_then_fuzzy corpusC5w "x.Y").1 "py" (by decide),
   ((C5_lookup_exact_then_fuzzy corpusC5w "other").2.2 (by decide) (by decide)).2⟩

/-- C6: a class whose estimated cost exceeds the remaining budget is not
appended and its edges are not expanded (only the skip and the `processed`
insertion happen); in particular, when the budget is below the cost of the
target class alone, the returned context is empty and the counter stays
zero. -/
theorem C6_over_budget_stops_branch :
    (∀ (cfg : Config) (s : GenState) (cur : String) (rest : List String),
      s.queue = cur :: rest → cur ∉ s.processed →
      matches_package_filter cur cfg.whitelist cfg.blacklist = true →
      get_class_content cfg.corpus cur ≠ "" →
      cfg.maxTokens <
        s.total + calculate_tokens (optimize_code_tokens (get_class_content cfg.corpus cur)) →
      genStep cfg s = { s with queue := rest, processed := cur :: s.processed }) ∧
    (∀ (corpus : Corpus) (mt : Nat) (si : List String → List String)
        (tr : String → List String) (target : String),
      mt < calculate_tokens (optimize_code_tokens (get_class_content corpus target)) →
      generate_context ⟨corpus, [], [], mt, si, tr⟩ target = "" ∧
      (genRun ⟨corpus, [], [], mt, si, tr⟩ target).total = 0) := by
  constructor
  · intro cfg s cur rest hq hp hf hc hb
    exact genStep_budget_refusal cfg s cur rest hq hp hf hc hb
  · intro corpus mt si tr target hlt
    have hc : get_class_content corpus target ≠ "" := by
      intro h0
      rw [h0] at hlt
      have hz : calculate_tokens (optimize_code_tokens "") = 0 := by decide
      omega
    rcases Nat.eq_zero_or_pos mt with hmt | hmt
    · have hdone : loopDone ⟨corpus, [], [], mt, si, tr⟩ (genInit target) :=
        Or.inr (by simp [genInit, hmt])
      have hrun : genRun ⟨corpus, [], [], mt, si, tr⟩ target = genInit target := by
        unfold genRun
        exact genLoop_done_eq _ _ hdone _
      rw [generate_context, hrun]
      exact ⟨rfl, rfl⟩
    · have hstep := genStep_budget_refusal ⟨corpus, [], [], mt, si, tr⟩ (genInit target)
        target [] rfl (by simp [genInit]) rfl hc (by simpa [genInit] using hlt)
      have hdone : loopDone ⟨corpus, [], [], mt, si, tr⟩
          (genStep ⟨corpus, [], [], mt, si, tr⟩ (genInit target)) := by
        rw [hstep]; exact Or.inl rfl
      have hrun : genRun ⟨corpus, [], [], mt, si, tr⟩ target =
          { genInit target with queue := [], processed := [target] } := by
        unfold genRun genFuel
        rw [genLoop_one_then_done _ _ _ ⟨by simp [genInit], by simpa [genInit] using hmt⟩ hdone]
        rw [hstep]
        rfl
      rw [generate_context, hrun]
      exact ⟨rfl, rfl⟩

/-- Witness for C6 at concrete inputs: with a budget of 1 and a target
costing 8 estimated tokens, the refusal branch fires on the first pop and
the run returns the empty context with a zero counter. -/
theorem C6_over_budget_stops_branch_witness :
    (genStep cfgC6 ⟨["a.A"], [], [], [], 0⟩ = ⟨[], ["a.A"], [], [], 0⟩) ∧
    generate_context cfgC6 "a.A" = "" ∧ (genRun cfgC6 "a.A").total = 0 :=
  ⟨C6_over_budget_stops_branch.1 cfgC6 ⟨["a.A"], [], [], [], 0⟩ "a.A" [] rfl
      (by decide) (by decide) (by decide) (by decide),
   (C6_over_budget_stops_branch.2 corpusC6 1 (fun l => l.dedup) (fun _ => []) "a.A"
      (by decide)).1,
   (C6_over_budget_stops_branch.2 corpusC6 1 (fun l => l.dedup) (fun _ => []) "a.A"
      (by decide)).2⟩

/-- C9 counterexample: the claim says two runs on the same corpus and seed
produce identical output, with references expanded in discovery order.  But
the references are poured into a Python set and the queue is extended in
set-iteration order: here two iteration orders of the same two-element
reference set (both enumerate exactly the distinct matches) yield different
concatenated outputs, so the ordering is not determined by corpus and
seed. -/
theorem C9_counterexample_set_iteration_order :
    (get_class_hierarchy corpusC9 (fun _ => []) "a.A").referenced = ["b.B", "c.C"] ∧
    List.Perm (cfgC9a.setIter ["b.B", "c.C"]) (cfgC9b.setIter ["b.B", "c.C"]) ∧
    generate_context cfgC9a "a.A" ≠ generate_context cfgC9b "a.A" := by
  refine ⟨by decide, by decide, by decide⟩

/-- C9 (amended): the expansion order of an appended class is stable only
up to set iteration: the queue is extended by the superclass, then the
interfaces in declared order, then the references in the order the set
iteration yields them (which the corpus does not determine), and the body
appended is the normalised content. -/
theorem C9_expansion_order (cfg : Config) (s : GenState) (cur : String)
    (rest : List String) (hq : s.queue = cur :: rest) (hp : cur ∉ s.processed)
    (hf : matches_package_filter cur cfg.whitelist cfg.blacklist = true)
    (hc : get_class_content cfg.corpus cur ≠ "")
    (hb : s.total + calculate_tokens (optimize_code_tokens (get_class_content cfg.corpus cur)) ≤
      cfg.maxTokens) :
    (genStep cfg s).queue =
      rest ++ (get_class_hierarchy cfg.corpus cfg.tracer cur).superclasses ++
        (get_class_hierarchy cfg.corpus cfg.tracer cur).interfaces ++
        cfg.setIter (get_class_hierarchy cfg.corpus cfg.tracer cur).referenced ∧
    (genStep cfg s).parts = s.parts ++ [optimize_code_tokens (get_class_content cfg.corpus cur)] := by
  rw [genStep_append cfg s cur rest hq hp hf hc hb]
  exact ⟨rfl, rfl⟩

/-- Witness for the amended C9 statement at concrete inputs: the first pop
of the `corpusC9` run extends the queue with exactly the set-iterated
references of `a.A` (it has no superclass and no interfaces). -/
theorem C9_expansion_order_witness :
    (genStep cfgC9a (genInit "a.A")).queue = ["b.B", "c.C"] ∧
    (genStep cfgC9a (genInit "a.A")).parts = ["class A\x7bb.B x;c.C y;\x7d"] := by
  have h := C9_expansion_order cfgC9a (genInit "a.A") "a.A" [] rfl
    (by decide) (by decide) (by decide) (by decide)
  refine ⟨?_, ?_⟩
  · rw [h.1]; decide
  · rw [h.2]; decide

/-- Whitespace characters are not word characters. -/
theorem isWordChar_eq_false_of_isPySpace {c : Char} (h : isPySpace c = true) :
    isWordChar c = false := by
  simp only [isPySpace, Bool.or_eq_true, decide_eq_true_eq] at h
  rcases h with ((((h | h) | h) | h) | h) | h <;> subst h <;> decide

/-- The word/symbol count splits over an append, with the scan flag carried
across the seam. -/
theorem countWordsAux_append (s t : List Char) :
    ∀ b, countWordsAux b (s ++ t) = countWordsAux b s + countWordsAux (lastFlag isWordChar b s) t := by
  induction s with
  | nil => intro b; simp [countWordsAux, lastFlag]
  | cons c cs ih =>
    intro b
    rw [List.cons_append, countWordsAux, countWordsAux, lastFlag]
    by_cases h1 : isWordChar c = true
    · rw [if_pos h1, if_pos h1, ih true, h1]
      omega
    · rw [if_neg h1, if_neg h1]
      have hflag : isWordChar c = false := by
        cases hw : isWordChar c
        · rfl
        · exact absurd hw h1
      by_cases h2 : isPySpace c = true
      · rw [if_pos h2, if_pos h2, ih false, hflag]
      · rw [if_neg h2, if_neg h2, ih false, hflag]
        omega

/-- The whitespace-run count splits over an append, with the scan flag
carried across the seam. -/
theorem countWsRunsAux_append (s t : List Char) :
    ∀ b, countWsRunsAux b (s ++ t) = countWsRunsAux b s + countWsRunsAux (lastFlag isPySpace b s) t := by
  induction s with
  | nil => intro b; simp [countWsRunsAux, lastFlag]
  | cons c cs ih =>
    intro b
    rw [List.cons_append, countWsRunsAux, countWsRunsAux, lastFlag]
    by_cases h1 : isPySpace c = true
    · rw [if_pos h1, if_pos h1, ih true, h1]
      omega
    · rw [if_neg h1, if_neg h1, ih false]
      have hflag : isPySpace c = false := by
        cases hw : isPySpace c
        · rfl
        · exact absurd hw h1
      rw [hflag]

/-- A scan flag over a run of matching characters ends true. -/
theorem lastFlag_of_all {f : Char → Bool} :
    ∀ {r : List Char} {b : Bool}, (∀ c ∈ r, f c = true) → (r = [] → b = true) →
      lastFlag f b r = true := by
  intro r
  induction r with
  | nil => intro b _ hb; exact hb rfl
  | cons c cs ih =>
    intro b hr _
    rw [lastFlag]
    exact ih (fun x hx => hr x (List.mem_cons_of_mem _ hx))
      (fun _ => hr c (List.mem_cons_self _ _))

/-- A pure whitespace run counts as zero further runs when entered mid-run,
and as exactly one run when entered outside one. -/
theorem countWsRunsAux_all_ws :
    ∀ {r : List Char}, (∀ c ∈ r, isPySpace c = true) →
      countWsRunsAux true r = 0 ∧
      countWsRunsAux false r = if r.isEmpty then 0 else 1 := by
  intro r
  induction r with
  | nil => intro _; exact ⟨rfl, rfl⟩
  | cons c cs ih =>
    intro hr
    have hc := hr c (List.mem_cons_self _ _)
    obtain ⟨ih1, _⟩ := ih (fun x hx => hr x (List.mem_cons_of_mem _ hx))
    constructor
    · rw [countWsRunsAux, if_pos hc, ih1]
      simp
    · rw [countWsRunsAux, if_pos hc, ih1]
      simp

/-- The whitespace-run count ignores the incoming flag when the text does
not open with whitespace. -/
theorem countWsRunsAux_true_eq_false {s : List Char}
    (hs : ∀ c, s.head? = some c → isPySpace c = false) :
    countWsRunsAux true s = countWsRunsAux false s := by
  cases s with
  | nil => rfl
  | cons c cs =>
    have hc := hs c rfl
    rw [countWsRunsAux, countWsRunsAux, if_neg (by simp [hc]), if_neg (by simp [hc])]

/-- A pure word run counts as zero further tokens when entered mid-run, and
as exactly one token when entered outside one. -/
theorem countWordsAux_all_word :
    ∀ {r : List Char}, (∀ c ∈ r, isWordChar c = true) →
      countWordsAux true r = 0 ∧
      countWordsAux false r = if r.isEmpty then 0 else 1 := by
  intro r
  induction r with
  | nil => intro _; exact ⟨rfl, rfl⟩
  | cons c cs ih =>
    intro hr
    have hc := hr c (List.mem_cons_self _ _)
    obtain ⟨ih1, _⟩ := ih (fun x hx => hr x (List.mem_cons_of_mem _ hx))
    constructor
    · rw [countWordsAux, if_pos hc, ih1]
      simp
    · rw [countWordsAux, if_pos hc, ih1]
      simp

/-- The word/symbol count ignores the incoming flag when the text does not
open with a word character. -/
theorem countWordsAux_true_eq_false {s : List Char}
    (hs : ∀ c, s.head? = some c → isWordChar c = false) :
    countWordsAux true s = countWordsAux false s := by
  cases s with
  | nil => rfl
  | cons c cs =>
    have hc := hs c rfl
    simp [countWordsAux, hc]

/-- Appending text never decreases any of the three counters. -/
theorem counters_mono (s t : List Char) :
    countWords s ≤ countWords (s ++ t) ∧
    countSpecial s ≤ countSpecial (s ++ t) ∧
    countWsRuns s ≤ countWsRuns (s ++ t) := by
  refine ⟨?_, ?_, ?_⟩
  · rw [countWords, countWords, countWordsAux_append s t false]
    omega
  · rw [countSpecial, countSpecial, List.countP_append]
    omega
  · rw [countWsRuns, countWsRuns, countWsRunsAux_append s t false]
    omega

/-- C8: `calculate_tokens` is the integer part of
`(word_count + bracket_count + whitespace_run_count) * 1.2` — embedded as
`6 * n / 5`, the value of `int(n * 1.2)` throughout the representable
range — where the counters behave as the claim describes: a maximal
whitespace run counts one whitespace run, a maximal word run counts one
word, a lone non-word non-space symbol counts one word, brackets are
counted per occurrence; and the estimate is monotonic under extension of
the text. -/
theorem C8_token_estimate_formula_and_monotone :
    (∀ text : String,
      calculate_tokens text =
        6 * (countWords text.data + countSpecial text.data + countWsRuns text.data) / 5) ∧
    (∀ r s : List Char, r ≠ [] → (∀ c ∈ r, isPySpace c = true) →
      (∀ c, s.head? = some c → isPySpace c = false) →
      countWsRuns (r ++ s) = 1 + countWsRuns s) ∧
    (∀ r s : List Char, r ≠ [] → (∀ c ∈ r, isWordChar c = true) →
      (∀ c, s.head? = some c → isWordChar c = false) →
      countWords (r ++ s) = 1 + countWords s) ∧
    (∀ (c : Char) (s : List Char), isWordChar c = false → isPySpace c = false →
      countWords (c :: s) = 1 + countWords s) ∧
    (∀ bracket : Char, isSpecialChar bracket = true →
      ∀ s : List Char, countSpecial (bracket :: s) = 1 + countSpecial s) ∧
    (∀ s t : String, calculate_tokens s ≤ calculate_tokens (s ++ t)) := by
  refine ⟨fun text => rfl, ?_, ?_, ?_, ?_, ?_⟩
  · intro r s hne hr hs
    obtain ⟨_, h1⟩ := countWsRunsAux_all_ws hr
    rw [countWsRuns, countWsRuns, countWsRunsAux_append r s false, h1,
      lastFlag_of_all hr (fun he => absurd he hne), countWsRunsAux_true_eq_false hs]
    cases r with
    | nil => exact absurd rfl hne
    | cons c cs => rfl
  · intro r s hne hr hs
    obtain ⟨_, h1⟩ := countWordsAux_all_word hr
    rw [countWords, countWords, countWordsAux_append r s false, h1,
      lastFlag_of_all hr (fun he => absurd he hne), countWordsAux_true_eq_false hs]
    cases r with
    | nil => exact absurd rfl hne
    | cons c cs => rfl
  · intro c s hw hsp
    rw [countWords, countWords, countWordsAux, if_neg (by simp [hw]),
      if_neg (by simp [hsp])]
  · intro bracket hb s
    rw [countSpecial, countSpecial, List.countP_cons, hb]
    simp
    omega
  · intro s t
    rw [calculate_tokens, calculate_tokens, String.data_append]
    apply Nat.div_le_div_right
    have h := counters_mono s.data t.data
    omega

/-- Witness for C8 at concrete inputs: one whitespace run, one word run,
one symbol and one bracket each count once, and the estimate of a short
text evaluates as the formula says. -/
theorem C8_token_estimate_formula_and_monotone_witness :
    calculate_tokens "a b" =
      6 * (countWords "a b".data + countSpecial "a b".data + countWsRuns "a b".data) / 5 ∧
    countWsRuns ([' ', ' '] ++ ['x']) = 1 + countWsRuns ['x'] ∧
    countWords (['a', 'b'] ++ [' ']) = 1 + countWords [' '] ∧
    countWords (';' :: ['a']) = 1 + countWords ['a'] ∧
    countSpecial ('(' :: ['y']) = 1 + countSpecial ['y'] ∧
    calculate_tokens "a" ≤ calculate_tokens ("a" ++ " b") :=
  ⟨C8_token_estimate_formula_and_monotone.1 "a b",
   C8_token_estimate_formula_and_monotone.2.1 [' ', ' '] ['x'] (by decide) (by decide)
     (by intro c hc; cases hc; decide),
   C8_token_estimate_formula_and_monotone.2.2.1 ['a', 'b'] [' '] (by decide) (by decide)
     (by intro c hc; cases hc; decide),
   C8_token_estimate_formula_and_monotone.2.2.2.1 ';' ['a'] (by decide) (by decide),
   C8_token_estimate_formula_and_monotone.2.2.2.2.1 '(' (by decide) ['y'],
   C8_token_estimate_formula_and_monotone.2.2.2.2.2 "a" " b"⟩

/-! ## At-most-once inclusion and termination of the closure loop -/

/-- One step preserves: appended names are distinct and all processed. -/
theorem genStep_appended (cfg : Config) (s : GenState)
    (h1 : s.appended.Nodup) (h2 : ∀ x ∈ s.appended, x ∈ s.processed) :
    (genStep cfg s).appended.Nodup ∧
    ∀ x ∈ (genStep cfg s).appended, x ∈ (genStep cfg s).processed := by
  cases hq : s.queue with
  | nil => simp only [genStep, hq]; exact ⟨h1, h2⟩
  | cons cur rest =>
    rcases genStep_shape cfg s cur rest hq with h | ⟨hp, h⟩ | ⟨hp, _, _, h⟩
    · rw [h]; exact ⟨h1, h2⟩
    · rw [h]; exact ⟨h1, fun x hx => List.mem_cons_of_mem _ (h2 x hx)⟩
    · rw [h]
      constructor
      · rw [List.nodup_append]
        refine ⟨h1, List.nodup_singleton _, ?_⟩
        intro x hx hx2
        rw [List.mem_singleton] at hx2
        subst hx2
        exact hp (h2 x hx)
      · intro x hx
        rcases List.mem_append.mp hx with hx | hx
        · exact List.mem_cons_of_mem _ (h2 x hx)
        · rw [List.mem_singleton] at hx
          subst hx
          exact List.mem_cons_self _ _

/-- The whole loop preserves the appended-names invariant. -/
theorem genLoop_appended (cfg : Config) :
    ∀ (n : Nat) (s : GenState), s.appended.Nodup → (∀ x ∈ s.appended, x ∈ s.processed) →
      (genLoop cfg n s).appended.Nodup ∧
      ∀ x ∈ (genLoop cfg n s).appended, x ∈ (genLoop cfg n s).processed := by
  intro n
  induction n with
  | zero => intro s h1 h2; exact ⟨h1, h2⟩
  | succ n ih =>
    intro s h1 h2
    rw [genLoop]
    split_ifs with hg
    · obtain ⟨h1s, h2s⟩ := genStep_appended cfg s h1 h2
      exact ih _ h1s h2s
    · exact ⟨h1, h2⟩

/-- Inserting an unprocessed candidate into `processed` removes exactly one
name from the unprocessed count of a duplicate-free candidate list. -/
theorem countP_cons_processed {d procs : List String} {cur : String}
    (hd : d.Nodup) (hcur : cur ∈ d) (hnp : cur ∉ procs) :
    d.countP (fun x => decide (x ∉ procs)) =
      d.countP (fun x => decide (x ∉ cur :: procs)) + 1 := by
  induction d with
  | nil => cases hcur
  | cons a d ih =>
    have hnodup := List.nodup_cons.mp hd
    rw [List.countP_cons, List.countP_cons]
    rcases List.mem_cons.mp hcur with heq | hcur2
    · subst heq
      have htail : d.countP (fun x => decide (x ∉ procs)) =
          d.countP (fun x => decide (x ∉ cur :: procs)) := by
        apply List.countP_congr
        intro x hx
        have hne : x ≠ cur := fun he => hnodup.1 (he ▸ hx)
        simp [List.mem_cons, hne]
      have e1 : (decide (cur ∉ procs)) = true := by simp [hnp]
      have e2 : (decide (cur ∉ cur :: procs)) = false := by simp [List.mem_cons]
      rw [htail, e1, e2]
      simp
    · have hane : a ≠ cur := fun he => hnodup.1 (he ▸ hcur2)
      have e : (decide (a ∉ cur :: procs)) = (decide (a ∉ procs)) := by
        simp [List.mem_cons, hane]
      rw [ih hnodup.2 hcur2, e]
      omega

/-- Growing `processed` never increases the unprocessed count. -/
theorem countP_cons_processed_le (d procs : List String) (cur : String) :
    d.countP (fun x => decide (x ∉ cur :: procs)) ≤
      d.countP (fun x => decide (x ∉ procs)) := by
  apply List.countP_mono_left
  intro x hx
  simp only [decide_eq_true_eq, List.mem_cons]
  tauto

/-- The hierarchy is either empty or extracted from a content entry of the
corpus. -/
theorem gch_edges_shape (c : Corpus) (tr : String → List String) (n : String) :
    ((get_class_hierarchy c tr n).superclasses = [] ∧
      (get_class_hierarchy c tr n).interfaces = [] ∧
      (get_class_hierarchy c tr n).referenced = []) ∨
    ∃ pc : String × String, pc ∈ c.content ∧
      (get_class_hierarchy c tr n).superclasses = superclassesOf pc.2 ∧
      (get_class_hierarchy c tr n).interfaces = interfacesOf pc.2 ∧
      (get_class_hierarchy c tr n).referenced = referencedOf pc.2 := by
  rcases hf : find_class_file c n with _ | p
  · left; simp [get_class_hierarchy, hf]
  · rcases hc : alistFind c.content p with _ | content
    · left; simp [get_class_hierarchy, hf, hc]
    · right
      exact ⟨(p, content), alistFind_mem hc, by simp [get_class_hierarchy, hf, hc]⟩

/-- Edges of a corpus content entry occur among all extractable names. -/
theorem mem_extractedNames {c : Corpus} {pc : String × String} (hm : pc ∈ c.content) :
    ∀ x ∈ edgesOf pc.2, x ∈ extractedNames c := by
  intro x hx
  unfold extractedNames
  exact List.mem_flatten.mpr ⟨edgesOf pc.2, List.mem_map_of_mem _ hm, hx⟩

/-- The edge list of one content entry is no longer than all extractable
names together. -/
theorem edges_length_le {c : Corpus} {pc : String × String} (hm : pc ∈ c.content) :
    (edgesOf pc.2).length ≤ (extractedNames c).length := by
  unfold extractedNames
  rw [List.length_flatten]
  apply List.single_le_sum (fun x _ => Nat.zero_le x)
  rw [List.map_map]
  exact List.mem_map_of_mem _ hm

/-- A duplicate-free selection from a list is no longer than the list. -/
theorem nodup_subset_length_le {sel l : List String}
    (hsub : ∀ x ∈ sel, x ∈ l) (hnd : sel.Nodup) : sel.length ≤ l.length := by
  calc sel.length = sel.toFinset.card := (List.toFinset_card_of_nodup hnd).symm
    _ ≤ l.toFinset.card := Finset.card_le_card (fun x hx => by
        rw [List.mem_toFinset] at hx ⊢
        exact hsub x hx)
    _ ≤ l.length := l.toFinset_card_le

/-- The frontier batch pushed for any class stays inside the extractable
names and is no longer than their number, for any set iteration that
enumerates a subset of its input without duplicates. -/
theorem batch_bound (cfg : Config)
    (hsub : ∀ (l : List String), ∀ x ∈ cfg.setIter l, x ∈ l)
    (hnd : ∀ l : List String, (cfg.setIter l).Nodup) (cur : String) :
    (∀ x ∈ (get_class_hierarchy cfg.corpus cfg.tracer cur).superclasses ++
        (get_class_hierarchy cfg.corpus cfg.tracer cur).interfaces ++
        cfg.setIter (get_class_hierarchy cfg.corpus cfg.tracer cur).referenced,
      x ∈ extractedNames cfg.corpus) ∧
    ((get_class_hierarchy cfg.corpus cfg.tracer cur).superclasses ++
        (get_class_hierarchy cfg.corpus cfg.tracer cur).interfaces ++
        cfg.setIter (get_class_hierarchy cfg.corpus cfg.tracer cur).referenced).length ≤
      (extractedNames cfg.corpus).length := by
  rcases gch_edges_shape cfg.corpus cfg.tracer cur with ⟨e1, e2, e3⟩ | ⟨pc, hm, e1, e2, e3⟩
  · rw [e1, e2, e3]
    have hempty : cfg.setIter [] = [] := by
      rcases hemp : cfg.setIter [] with _ | ⟨a, t⟩
      · rfl
      · exact absurd (hsub [] a (hemp ▸ List.mem_cons_self a t)) (List.not_mem_nil a)
    rw [hempty]
    exact ⟨fun x hx => absurd hx (List.not_mem_nil x), by simp⟩
  · rw [e1, e2, e3]
    have hedges : edgesOf pc.2 =
        superclassesOf pc.2 ++ interfacesOf pc.2 ++ referencedOf pc.2 := rfl
    constructor
    · intro x hx
      apply mem_extractedNames hm
      rw [hedges]
      simp only [List.mem_append] at hx ⊢
      rcases hx with (hx | hx) | hx
      · exact Or.inl (Or.inl hx)
      · exact Or.inl (Or.inr hx)
      · exact Or.inr (hsub _ x hx)
    · have hlen : (cfg.setIter (referencedOf pc.2)).length ≤ (referencedOf pc.2).length :=
        nodup_subset_length_le (hsub _) (hnd _)
      have hE := edges_length_le hm
      rw [hedges] at hE
      simp only [List.length_append] at hE ⊢
      omega

/-- Every guarded iteration strictly decreases the loop potential and
keeps the queue inside the candidate names. -/
theorem genStep_progress (cfg : Config) (target : String)
    (hsub : ∀ (l : List String), ∀ x ∈ cfg.setIter l, x ∈ l)
    (hnd : ∀ l : List String, (cfg.setIter l).Nodup) (s : GenState)
    (hqinv : ∀ x ∈ s.queue, x ∈ allNames cfg.corpus target)
    (hne : s.queue ≠ []) :
    phi cfg.corpus target (genStep cfg s) < phi cfg.corpus target s ∧
    ∀ x ∈ (genStep cfg s).queue, x ∈ allNames cfg.corpus target := by
  obtain ⟨cur, rest, hq⟩ := List.exists_cons_of_ne_nil hne
  have hcur : cur ∈ allNames cfg.corpus target := hqinv cur (hq ▸ List.mem_cons_self cur rest)
  have hrest : ∀ x ∈ rest, x ∈ allNames cfg.corpus target :=
    fun x hx => hqinv x (hq ▸ List.mem_cons_of_mem _ hx)
  rcases genStep_shape cfg s cur rest hq with h | ⟨hp, h⟩ | ⟨hp, _, _, h⟩
  · rw [h]
    refine ⟨?_, hrest⟩
    unfold phi remaining
    rw [hq]
    simp only [List.length_cons]
    omega
  · rw [h]
    refine ⟨?_, hrest⟩
    unfold phi remaining
    rw [hq]
    simp only [List.length_cons]
    have hle := countP_cons_processed_le (allNames cfg.corpus target).dedup s.processed cur
    have hmul : weight cfg.corpus *
        (allNames cfg.corpus target).dedup.countP (fun x => decide (x ∉ cur :: s.processed)) ≤
        weight cfg.corpus *
        (allNames cfg.corpus target).dedup.countP (fun x => decide (x ∉ s.processed)) :=
      Nat.mul_le_mul_left _ hle
    omega
  · rw [h]
    obtain ⟨hbm, hbl⟩ := batch_bound cfg hsub hnd cur
    constructor
    · unfold phi remaining
      rw [hq]
      have hRdec := countP_cons_processed (d := (allNames cfg.corpus target).dedup)
        (List.nodup_dedup _) (List.mem_dedup.mpr hcur) hp
      simp only [List.length_append, List.length_cons]
      rw [hRdec, Nat.mul_succ]
      have hblen : ((get_class_hierarchy cfg.corpus cfg.tracer cur).superclasses ++
          (get_class_hierarchy cfg.corpus cfg.tracer cur).interfaces ++
          cfg.setIter (get_class_hierarchy cfg.corpus cfg.tracer cur).referenced).length ≤
          weight cfg.corpus - 1 := by
        unfold weight
        omega
      simp only [List.length_append] at hblen
      have hW : 1 ≤ weight cfg.corpus := by unfold weight; omega
      omega
    · intro x hx
      simp only [List.mem_append] at hx
      rcases hx with ((hx | hx) | hx) | hx
      · exact hrest x hx
      · exact List.mem_cons_of_mem _ (hbm x (by simp only [List.mem_append]; tauto))
      · exact List.mem_cons_of_mem _ (hbm x (by simp only [List.mem_append]; tauto))
      · exact List.mem_cons_of_mem _ (hbm x (by simp only [List.mem_append]; tauto))

/-- With fuel at least the potential, the loop reaches its exit
condition. -/
theorem genLoop_reaches_done (cfg : Config) (target : String)
    (hsub : ∀ (l : List String), ∀ x ∈ cfg.setIter l, x ∈ l)
    (hnd : ∀ l : List String, (cfg.setIter l).Nodup) :
    ∀ (fuel : Nat) (s : GenState),
      (∀ x ∈ s.queue, x ∈ allNames cfg.corpus target) →
      phi cfg.corpus target s ≤ fuel →
      loopDone cfg (genLoop cfg fuel s) := by
  intro fuel
  induction fuel with
  | zero =>
    intro s hq hphi
    have hlen : s.queue.length = 0 := by
      unfold phi at hphi
      omega
    exact Or.inl (List.eq_nil_of_length_eq_zero hlen)
  | succ fuel ih =>
    intro s hq hphi
    rw [genLoop]
    split_ifs with hg
    · obtain ⟨hdec, hinv⟩ := genStep_progress cfg target hsub hnd s hq hg.1
      exact ih (genStep cfg s) hinv (by omega)
    · unfold loopDone
      rcases Classical.em (s.queue = []) with he | he
      · exact Or.inl he
      · refine Or.inr ?_
        by_contra hlt
        exact hg ⟨he, by omega⟩

/-- C4: in every run each class name contributes at most one appended body
(for every fuel the history of appended names is duplicate-free), and — for
any set iteration enumerating a subset of its input without duplicates, as
a Python set does — the loop reaches its exit condition within the fuel of
`genRun` and is unchanged by any extra fuel, so the closure terminates even
on cyclic reference graphs without re-appending any class. -/
theorem C4_at_most_once_and_terminates (cfg : Config) (target : String)
    (hsub : ∀ (l : List String), ∀ x ∈ cfg.setIter l, x ∈ l)
    (hnd : ∀ l : List String, (cfg.setIter l).Nodup) :
    (∀ fuel, (genLoop cfg fuel (genInit target)).appended.Nodup) ∧
    loopDone cfg (genRun cfg target) ∧
    ∀ extra, genLoop cfg (genFuel cfg target + extra) (genInit target) = genRun cfg target := by
  have hqinv : ∀ x ∈ (genInit target).queue, x ∈ allNames cfg.corpus target := by
    intro x hx
    rcases List.mem_singleton.mp hx with rfl
    exact List.mem_cons_self _ _
  have hphi : phi cfg.corpus target (genInit target) ≤ genFuel cfg target := by
    unfold phi genFuel
    have h1 : remaining cfg.corpus target (genInit target) ≤
        (allNames cfg.corpus target).dedup.length := List.countP_le_length _
    have h2 : weight cfg.corpus * remaining cfg.corpus target (genInit target) ≤
        weight cfg.corpus * (allNames cfg.corpus target).dedup.length :=
      Nat.mul_le_mul_left _ h1
    unfold weight at h2 ⊢
    have hq1 : (genInit target).queue.length = 1 := rfl
    omega
  have hdone : loopDone cfg (genRun cfg target) :=
    genLoop_reaches_done cfg target hsub hnd _ _ hqinv hphi
  refine ⟨?_, hdone, ?_⟩
  · intro fuel
    exact (genLoop_appended cfg fuel (genInit target) List.nodup_nil (by simp [genInit])).1
  · intro extra
    exact genLoop_add_of_done cfg _ extra _ hdone

/-- Witness for C4 at concrete inputs: on the cyclic corpus
`a.A -> b.B -> a.A` with the set iteration that keeps first occurrences,
the run appends each class once and exits with an empty queue. -/
theorem C4_at_most_once_and_terminates_witness :
    (genRun cfgC4 "a.A").appended.Nodup ∧ loopDone cfgC4 (genRun cfgC4 "a.A") ∧
    (genRun cfgC4 "a.A").appended = ["a.A", "b.B"] := by
  have h := C4_at_most_once_and_terminates cfgC4 "a.A"
    (fun l x hx => List.mem_dedup.mp hx) (fun l => List.nodup_dedup l)
  exact ⟨h.1 (genFuel cfgC4 "a.A"), h.2.1, by decide⟩

end JadxCB
